import Mathlib

/-!
Verification of the Telegram news digest pipeline (main.py, processing.py,
publisher.py) against its natural-language specification.

Texts are embedded as `List Char` (Python `str` is a sequence of code
points, and Python `len` counts code points, as does `List.length` here).

All definitions are shallow embeddings of the Python source; stateful
network code (publisher) is modelled by passing the destination's
response trace explicitly.
-/

namespace Digest

/-- Python `str.strip()`: removes whitespace from both ends. -/
def trimChars (l : List Char) : List Char :=
  ((l.dropWhile Char.isWhitespace).reverse.dropWhile Char.isWhitespace).reverse

/-- Python `text.split("\n\n")`: cut at each non-overlapping, leftmost
occurrence of two consecutive newlines. -/
def splitParas : List Char → List (List Char)
  | [] => [[]]
  | '\n' :: '\n' :: rest => [] :: splitParas rest
  | c :: rest =>
    match splitParas rest with
    | [] => [[c]]
    | p :: ps => (c :: p) :: ps

/-- Inverse of `splitParas`: Python `"\n\n".join(...)`. -/
def joinParas : List (List Char) → List Char
  | [] => []
  | [p] => p
  | p :: ps => p ++ '\n' :: '\n' :: joinParas ps

/-- The hard-split `while` loop of `split_for_telegram` (main.py lines
92-96): consecutive slices of `max_len` characters.  Runs on fuel; one
unit of fuel per emitted slice, so `fuel = length` always suffices when
`max_len ≥ 1` (the Python loop diverges for `max_len = 0`, which the
spec excludes). `(c :: rest.take (m-1))` is `take m` of the whole list. -/
def hardSplitF : Nat → Nat → List Char → List (List Char)
  | 0, _, _ => []
  | _ + 1, _, [] => []
  | fuel + 1, m, c :: rest => (c :: rest.take (m - 1)) :: hardSplitF fuel m (rest.drop (m - 1))

def hardSplit (m : Nat) (p : List Char) : List (List Char) :=
  hardSplitF p.length m p

/-- `candidate = f"{buffer}\n\n{paragraph}".strip()`, overwritten with the
bare paragraph when the buffer is empty (main.py lines 75-77). -/
def candidateOf (buffer p : List Char) : List Char :=
  if buffer = [] then p else trimChars (buffer ++ '\n' :: '\n' :: p)

/-- `if buffer: chunks.append(buffer)` (main.py lines 83-85). -/
def flushOf (buffer : List Char) : List (List Char) :=
  if buffer = [] then [] else [buffer]

/-- The paragraph-accumulation loop of `split_for_telegram` (main.py
lines 74-99), with the trailing `if buffer: chunks.append(buffer)`. -/
def splitGo (m : Nat) : List (List Char) → List Char → List (List Char)
  | [], buffer => flushOf buffer
  | p :: ps, buffer =>
    if (candidateOf buffer p).length ≤ m then splitGo m ps (candidateOf buffer p)
    else if p.length ≤ m then flushOf buffer ++ splitGo m ps p
    else flushOf buffer ++ (hardSplit m p ++ splitGo m ps [])

/-- `split_for_telegram` (main.py lines 60-101). -/
def split_for_telegram (text : List Char) (max_len : Nat) : List (List Char) :=
  if text.length ≤ max_len then [text] else splitGo max_len (splitParas text) []

/-- The non-whitespace content of a text, in order. -/
def nonWs (l : List Char) : List Char := l.filter (fun c => !c.isWhitespace)

theorem nonWs_append (a b : List Char) : nonWs (a ++ b) = nonWs a ++ nonWs b := by
  simp [nonWs, List.filter_append]

theorem nonWs_dropWhile (l : List Char) :
    nonWs (l.dropWhile Char.isWhitespace) = nonWs l := by
  induction l with
  | nil => rfl
  | cons c cs ih =>
    by_cases hc : Char.isWhitespace c
    · have h1 : List.dropWhile Char.isWhitespace (c :: cs)
          = List.dropWhile Char.isWhitespace cs := by
        simp [List.dropWhile, hc]
      rw [h1, ih]
      simp [nonWs, List.filter_cons, hc]
    · simp [List.dropWhile, hc]

theorem nonWs_reverse (l : List Char) : nonWs l.reverse = (nonWs l).reverse := by
  simp [nonWs, List.filter_reverse]

theorem nonWs_trimChars (l : List Char) : nonWs (trimChars l) = nonWs l := by
  unfold trimChars
  rw [nonWs_reverse, nonWs_dropWhile, nonWs_reverse, List.reverse_reverse, nonWs_dropWhile]

theorem splitParas_ne_nil (l : List Char) : splitParas l ≠ [] := by
  induction l using splitParas.induct with
  | case1 => simp [splitParas.eq_1]
  | case2 rest ih => simp [splitParas.eq_2]
  | case3 c rest h hnil ih => exact absurd hnil ih
  | case4 c rest h p ps hps ih => simp [splitParas.eq_3 c rest h, hps]

theorem splitParas_cons_of_step (c : Char) (rest : List Char) (p : List Char)
    (ps : List (List Char)) (h : ∀ rest2 : List Char, c = '\n' → rest = '\n' :: rest2 → False)
    (hps : splitParas rest = p :: ps) : splitParas (c :: rest) = (c :: p) :: ps := by
  rw [splitParas.eq_3 c rest h, hps]

theorem joinParas_cons_cons (p q : List Char) (qs : List (List Char)) :
    joinParas (p :: q :: qs) = p ++ '\n' :: '\n' :: joinParas (q :: qs) :=
  joinParas.eq_3 p (q :: qs) (by simp)

theorem joinParas_splitParas (l : List Char) : joinParas (splitParas l) = l := by
  induction l using splitParas.induct with
  | case1 => rfl
  | case2 rest ih =>
    rw [splitParas.eq_2]
    cases hsp : splitParas rest with
    | nil => exact absurd hsp (splitParas_ne_nil rest)
    | cons p ps =>
      rw [hsp] at ih
      rw [joinParas_cons_cons, ih]
      rfl
  | case3 c rest h hnil ih => exact absurd hnil (splitParas_ne_nil rest)
  | case4 c rest h p ps hps ih =>
    rw [hps] at ih
    rw [splitParas_cons_of_step c rest p ps h hps]
    cases ps with
    | nil =>
      rw [joinParas.eq_2] at ih ⊢
      rw [ih]
    | cons q qs =>
      rw [joinParas_cons_cons] at ih
      rw [joinParas_cons_cons, List.cons_append, ih]

theorem nonWs_joinParas (ps : List (List Char)) :
    nonWs (joinParas ps) = (ps.map nonWs).flatten := by
  induction ps with
  | nil => rfl
  | cons p ps ih =>
    cases ps with
    | nil => simp [joinParas, nonWs]
    | cons q qs =>
      simp only [joinParas, List.map, List.flatten]
      rw [nonWs_append]
      have h2 : nonWs ('\n' :: '\n' :: joinParas (q :: qs)) = nonWs (joinParas (q :: qs)) := by
        simp [nonWs, List.filter]
      rw [h2, ih]
      simp [List.map, List.flatten]

theorem nonWs_splitParas_flatten (l : List Char) :
    ((splitParas l).map nonWs).flatten = nonWs l := by
  rw [← nonWs_joinParas, joinParas_splitParas]

theorem hardSplitF_flatten (fuel m : Nat) (l : List Char) (h : l.length ≤ fuel) :
    (hardSplitF fuel m l).flatten = l := by
  induction fuel generalizing l with
  | zero =>
    have : l = [] := List.length_eq_zero.mp (Nat.le_zero.mp h)
    subst this; rfl
  | succ fuel ih =>
    cases l with
    | nil => rfl
    | cons c rest =>
      simp only [hardSplitF, List.flatten_cons]
      have hlen : (rest.drop (m - 1)).length ≤ fuel := by
        have := List.length_drop (m - 1) rest
        simp only [List.length_cons] at h
        omega
      rw [ih _ hlen]
      simp [List.take_append_drop]

theorem hardSplit_flatten (m : Nat) (l : List Char) : (hardSplit m l).flatten = l :=
  hardSplitF_flatten l.length m l (Nat.le_refl _)

theorem hardSplitF_length_le (fuel m : Nat) (l : List Char) (hm : 0 < m) :
    ∀ s ∈ hardSplitF fuel m l, s.length ≤ m := by
  induction fuel generalizing l with
  | zero => intro s hs; simp [hardSplitF] at hs
  | succ fuel ih =>
    intro s hs
    cases l with
    | nil => simp [hardSplitF] at hs
    | cons c rest =>
      simp only [hardSplitF, List.mem_cons] at hs
      rcases hs with rfl | hs
      · have := List.length_take (m - 1) rest
        simp only [List.length_cons, this]
        omega
      · exact ih _ s hs

theorem hardSplitF_ne_nil (fuel m : Nat) (l : List Char) :
    ∀ s ∈ hardSplitF fuel m l, s ≠ [] := by
  induction fuel generalizing l with
  | zero => intro s hs; simp [hardSplitF] at hs
  | succ fuel ih =>
    intro s hs
    cases l with
    | nil => simp [hardSplitF] at hs
    | cons c rest =>
      simp only [hardSplitF, List.mem_cons] at hs
      rcases hs with rfl | hs
      · simp
      · exact ih _ s hs

theorem mem_flushOf {buffer c : List Char} (h : c ∈ flushOf buffer) : c = buffer := by
  unfold flushOf at h
  split at h <;> simp_all

theorem flushOf_ne_nil {buffer c : List Char} (h : c ∈ flushOf buffer) : c ≠ [] := by
  unfold flushOf at h
  split at h <;> simp_all

theorem nonWs_flushOf_flatten (buffer : List Char) :
    nonWs (flushOf buffer).flatten = nonWs buffer := by
  unfold flushOf
  split <;> simp_all [nonWs]

theorem candidateOf_length_eq (buffer p : List Char) (h : buffer = []) :
    candidateOf buffer p = p := by
  simp [candidateOf, h]

theorem nonWs_candidateOf (buffer p : List Char) :
    nonWs (candidateOf buffer p) = nonWs buffer ++ nonWs p := by
  unfold candidateOf
  split
  · simp_all [nonWs]
  · rw [nonWs_trimChars, nonWs_append]
    have h2 : nonWs ('\n' :: '\n' :: p) = nonWs p := by
      simp [nonWs, List.filter]
    rw [h2]

theorem splitGo_length_le (m : Nat) (hm : 0 < m) :
    ∀ (ps : List (List Char)) (buffer : List Char), buffer.length ≤ m →
      ∀ c ∈ splitGo m ps buffer, c.length ≤ m := by
  intro ps
  induction ps with
  | nil =>
    intro buffer hb c hc
    simp only [splitGo] at hc
    rw [mem_flushOf hc]
    exact hb
  | cons p ps ih =>
    intro buffer hb c hc
    simp only [splitGo] at hc
    split at hc
    · exact ih _ (by assumption) c hc
    · split at hc
      · rcases List.mem_append.mp hc with h | h
        · rw [mem_flushOf h]; exact hb
        · exact ih _ (by assumption) c h
      · rcases List.mem_append.mp hc with h | h
        · rw [mem_flushOf h]; exact hb
        · rcases List.mem_append.mp h with h2 | h2
          · exact hardSplitF_length_le _ m p hm c h2
          · exact ih _ (by simp) c h2

theorem splitGo_ne_nil (m : Nat) :
    ∀ (ps : List (List Char)) (buffer : List Char), ∀ c ∈ splitGo m ps buffer, c ≠ [] := by
  intro ps
  induction ps with
  | nil =>
    intro buffer c hc
    simp only [splitGo] at hc
    exact flushOf_ne_nil hc
  | cons p ps ih =>
    intro buffer c hc
    simp only [splitGo] at hc
    split at hc
    · exact ih _ c hc
    · split at hc
      · rcases List.mem_append.mp hc with h | h
        · exact flushOf_ne_nil h
        · exact ih _ c h
      · rcases List.mem_append.mp hc with h | h
        · exact flushOf_ne_nil h
        · rcases List.mem_append.mp h with h2 | h2
          · exact hardSplitF_ne_nil _ m p c h2
          · exact ih _ c h2

theorem splitGo_nonWs (m : Nat) :
    ∀ (ps : List (List Char)) (buffer : List Char),
      nonWs (splitGo m ps buffer).flatten = nonWs buffer ++ (ps.map nonWs).flatten := by
  intro ps
  induction ps with
  | nil =>
    intro buffer
    simp only [splitGo, List.map_nil, List.flatten_nil, List.append_nil]
    exact nonWs_flushOf_flatten buffer
  | cons p ps ih =>
    intro buffer
    simp only [splitGo]
    split
    · rw [ih, nonWs_candidateOf]
      simp [List.append_assoc]
    · split
      · rw [List.flatten_append, nonWs_append, nonWs_flushOf_flatten, ih]
        simp [List.append_assoc]
      · rw [List.flatten_append, nonWs_append, nonWs_flushOf_flatten,
          List.flatten_append, nonWs_append, hardSplit_flatten, ih]
        simp [nonWs, List.append_assoc]

/-- Counterexample input for C1: a paragraph starting with a space,
merged with the next paragraph by the `.strip()` in the accumulation
loop, which silently drops the space. -/
def exC1 : List Char := [' ', 'a', '\n', '\n', 'b']

/-- C1 (counterexample): `split_for_telegram " a\n\nb" 4` returns the single
chunk `"a\n\nb"`; the leading space — not a paragraph separator — is lost,
so no re-insertion of blank-line separators can reconstruct the original
text: even the subsequence of non-newline characters differs. -/
theorem split_for_telegram_drops_chars_cex :
    split_for_telegram exC1 4 = [['a', '\n', '\n', 'b']] ∧
    (split_for_telegram exC1 4).flatten.filter (fun c => c ≠ '\n')
      ≠ exC1.filter (fun c => c ≠ '\n') := by
  decide

/-- C1 (amended): for every text and every max_len > 0, rejoining the
chunks returned by `split_for_telegram` preserves every non-whitespace
character of the original text, in order; whitespace adjacent to
paragraph boundaries may be trimmed when paragraphs are merged. -/
theorem split_for_telegram_preserves_nonws (text : List Char) (max_len : Nat)
    (_hm : 0 < max_len) :
    nonWs (split_for_telegram text max_len).flatten = nonWs text := by
  unfold split_for_telegram
  split
  · simp
  · rw [splitGo_nonWs, nonWs_splitParas_flatten]
    rfl

theorem split_for_telegram_preserves_nonws_witness :
    0 < 2 ∧ nonWs (split_for_telegram ['x', 'y', 'z'] 2).flatten = nonWs ['x', 'y', 'z'] :=
  ⟨by decide, split_for_telegram_preserves_nonws ['x', 'y', 'z'] 2 (by decide)⟩

/-- C6: for every input text and every max_len > 0, every chunk returned
by `split_for_telegram` has length ≤ max_len. -/
theorem split_for_telegram_chunk_length (text : List Char) (max_len : Nat)
    (hm : 0 < max_len) :
    ∀ chunk ∈ split_for_telegram text max_len, chunk.length ≤ max_len := by
  intro chunk hc
  unfold split_for_telegram at hc
  split at hc
  · simp only [List.mem_singleton] at hc
    subst hc
    assumption
  · exact splitGo_length_le max_len hm _ [] (by simp) chunk hc

theorem split_for_telegram_chunk_length_witness :
    0 < 2 ∧ ∀ chunk ∈ split_for_telegram ['x', 'y', 'z'] 2, chunk.length ≤ 2 :=
  ⟨by decide, split_for_telegram_chunk_length ['x', 'y', 'z'] 2 (by decide)⟩

/-- C7 (counterexample): `split_for_telegram` applied to the empty text
returns `[""]`, a sequence containing an empty chunk; and applied to the
text `"\n\n"` with max_len 1 it returns the empty sequence, so the result
is neither always free of empty chunks nor always non-empty. -/
theorem split_for_telegram_empty_chunk_cex :
    split_for_telegram [] 1 = [[]] ∧ split_for_telegram ['\n', '\n'] 1 = [] := by
  decide

/-- C7 (amended): for every NON-EMPTY input text and every max_len > 0,
every chunk returned by `split_for_telegram` is non-empty.  (The returned
sequence itself can still be empty when the text exceeds max_len and
consists solely of blank-line separators, and the single returned chunk
is empty when the input text is empty.) -/
theorem split_for_telegram_chunks_ne_nil (text : List Char) (max_len : Nat)
    (_hm : 0 < max_len) (ht : text ≠ []) :
    ∀ chunk ∈ split_for_telegram text max_len, chunk ≠ [] := by
  intro chunk hc
  unfold split_for_telegram at hc
  split at hc
  · simp only [List.mem_singleton] at hc
    subst hc
    exact ht
  · exact splitGo_ne_nil max_len _ [] chunk hc

theorem split_for_telegram_chunks_ne_nil_witness :
    (0 < 2 ∧ (['x', 'y', 'z'] : List Char) ≠ []) ∧
      ∀ chunk ∈ split_for_telegram ['x', 'y', 'z'] 2, chunk ≠ [] :=
  ⟨⟨by decide, by decide⟩,
    split_for_telegram_chunks_ne_nil ['x', 'y', 'z'] 2 (by decide) (by decide)⟩

/-! ## Selector (processing.py, collector.py data model) -/

/-- `CollectedMessage` dataclass (collector.py lines 13-22).  Timestamps
are embedded as `Int` (timezone-aware datetimes are totally ordered and
always truthy); `views` is `Option Nat` (`None` when the source supplies
no view count). -/
structure CollectedMessage where
  channel : String
  message_id : Nat
  date : Int
  text : String
  link : Option String
  views : Option Nat
deriving DecidableEq

/-- `SummaryRequest` dataclass (summarizer.py lines 16-21). -/
structure SummaryRequest where
  title : String
  text : String
deriving DecidableEq

/-- Abstraction of the external `msg.date.strftime("%d.%m %H:%M")`
rendering: the claims depend only on it being a function of the
timestamp, so any concrete rendering serves. -/
def strftime_ddmm (d : Int) : String := toString d

/-- Python `str.strip()` on `String`. -/
def pyStrip (s : String) : String := String.mk (trimChars s.data)

/-- `_format_message` (processing.py lines 17-21).  Python truthiness:
`msg.link` is falsy when `None` or empty; `msg.views` is falsy when
`None` or `0`; `msg.date` (a datetime) is always truthy. -/
def _format_message (m : CollectedMessage) : String :=
  let date_str := strftime_ddmm m.date
  let link_part :=
    match m.link with
    | some l => if l = "" then "" else s!" (ссылка: {l})"
    | none => ""
  let views_part :=
    match m.views with
    | some v => if v = 0 then "" else s!" [просмотры: {v}]"
    | none => ""
  let body := pyStrip m.text
  s!"- [{date_str}]{views_part}{link_part}\n{body}"

/-- `sort_key` (processing.py lines 30-31): `(msg.views or 0, msg.date)`. -/
def sort_key (m : CollectedMessage) : Nat × Int := (m.views.getD 0, m.date)

/-- Lexicographic comparison of Python tuples `(views, date)`. -/
def keyLE (a b : Nat × Int) : Bool :=
  decide (a.1 < b.1 ∨ (a.1 = b.1 ∧ a.2 ≤ b.2))

/-- `msgBefore a b` = "a may be placed before b" in the descending sort:
`sorted(messages, key=sort_key, reverse=True)` orders by descending key
while preserving the original order of equal keys. -/
def msgBefore (a b : CollectedMessage) : Bool := keyLE (sort_key b) (sort_key a)

def insertSorted {α : Type} (le : α → α → Bool) (a : α) : List α → List α
  | [] => [a]
  | b :: bs => if le a b then a :: b :: bs else b :: insertSorted le a bs

/-- Stable sort (insertion sort).  Python `sorted` is stable, also with
`reverse=True`; any stable sort with the same precedence predicate
produces the same output list, so this is output-equivalent to the
source's `sorted`. -/
def stableSortBy {α : Type} (le : α → α → Bool) (l : List α) : List α :=
  l.foldr (insertSorted le) []

def DEFAULT_TOP_MESSAGES : Nat := 25

/-- `select_top_messages` (processing.py lines 24-33). -/
def select_top_messages (messages : List CollectedMessage) (limit : Nat) :
    List CollectedMessage :=
  (stableSortBy msgBefore messages).take limit

def MAX_CHARS_PER_REQUEST : Nat := 3500

/-- The accumulation loop of `build_summary_request` (processing.py
lines 40-49): greedily accept formatted blocks, stopping before the
first block whose candidate length would exceed the budget — unless no
block has been accepted yet. -/
def accumulateParts : List String → List String → Nat → List String
  | [], parts, _ => parts
  | f :: fs, parts, cur =>
    if cur + f.length + 2 > MAX_CHARS_PER_REQUEST ∧ parts ≠ [] then parts
    else accumulateParts fs (parts ++ [f]) (cur + f.length + 2)

/-- Python `"\n\n".join(...)`. -/
def joinBlocks : List String → String
  | [] => ""
  | [p] => p
  | p :: ps => p ++ "\n\n" ++ joinBlocks ps

def PLACEHOLDER_TEXT : String :=
  "Нет текстовых сообщений подходящей длины за выбранный период."

/-- `build_summary_request` (processing.py lines 36-57). -/
def build_summary_request (channel : String) (messages : List CollectedMessage) :
    SummaryRequest :=
  SummaryRequest.mk (s!"Канал {channel} — недельная сводка")
    (if joinBlocks (accumulateParts
          ((select_top_messages messages DEFAULT_TOP_MESSAGES).map _format_message) [] 0) = ""
     then PLACEHOLDER_TEXT
     else joinBlocks (accumulateParts
          ((select_top_messages messages DEFAULT_TOP_MESSAGES).map _format_message) [] 0))

theorem joinBlocks_cons_cons (p q : String) (qs : List String) :
    joinBlocks (p :: q :: qs) = p ++ "\n\n" ++ joinBlocks (q :: qs) :=
  joinBlocks.eq_3 p (q :: qs) (by simp)

theorem joinBlocks_append_singleton (parts : List String) (f : String) (h : parts ≠ []) :
    joinBlocks (parts ++ [f]) = joinBlocks parts ++ "\n\n" ++ f := by
  induction parts with
  | nil => contradiction
  | cons p ps ih =>
    cases ps with
    | nil => simp [joinBlocks_cons_cons, joinBlocks]
    | cons q qs =>
      have hih := ih (by simp)
      simp only [List.cons_append] at *
      rw [joinBlocks_cons_cons, joinBlocks_cons_cons, hih]
      simp [String.append_assoc]

theorem joinBlocks_length_append (parts : List String) (f : String) (h : parts ≠ []) :
    (joinBlocks (parts ++ [f])).length = (joinBlocks parts).length + 2 + f.length := by
  rw [joinBlocks_append_singleton parts f h]
  simp only [String.length_append]
  have h2 : ("\n\n" : String).length = 2 := rfl
  omega

theorem accumulateParts_spec : ∀ (fs parts : List String) (cur : Nat),
    parts ≠ [] → cur = (joinBlocks parts).length + 2 →
    accumulateParts fs parts cur = parts ∨
      (joinBlocks (accumulateParts fs parts cur)).length + 2 ≤ MAX_CHARS_PER_REQUEST := by
  intro fs
  induction fs with
  | nil => intro parts cur _ _; left; rfl
  | cons f fs ih =>
    intro parts cur hne hcur
    simp only [accumulateParts]
    split
    · left; rfl
    · rename_i hguard
      have hle : cur + f.length + 2 ≤ MAX_CHARS_PER_REQUEST := by
        by_contra h'
        exact hguard ⟨by omega, hne⟩
      have hinv : cur + f.length + 2 = (joinBlocks (parts ++ [f])).length + 2 := by
        rw [joinBlocks_length_append parts f hne]
        omega
      rcases ih (parts ++ [f]) _ (by simp) hinv with h | h
      · right
        rw [h, ← hinv]
        omega
      · right
        exact h

theorem accumulateParts_stop (fs parts : List String) (cur : Nat) (hne : parts ≠ [])
    (hcur : MAX_CHARS_PER_REQUEST < cur) : accumulateParts fs parts cur = parts := by
  cases fs with
  | nil => rfl
  | cons f fs =>
    simp only [accumulateParts]
    rw [if_pos ⟨by omega, hne⟩]

/-- C2: for every channel and message set, the body of the returned
`SummaryRequest` has length ≤ 3500 — except when the very first
formatted block alone exceeds the budget; and whenever the very first
block exceeds the budget, exactly that block is the body, verbatim. -/
theorem build_summary_request_budget (channel : String) (messages : List CollectedMessage) :
    ((build_summary_request channel messages).text.length ≤ MAX_CHARS_PER_REQUEST ∨
      ∃ f fs, (select_top_messages messages DEFAULT_TOP_MESSAGES).map _format_message
          = f :: fs ∧ MAX_CHARS_PER_REQUEST < f.length) ∧
    (∀ f fs, (select_top_messages messages DEFAULT_TOP_MESSAGES).map _format_message
        = f :: fs → MAX_CHARS_PER_REQUEST < f.length →
      (build_summary_request channel messages).text = f) := by
  have hplaceholder : PLACEHOLDER_TEXT.length ≤ MAX_CHARS_PER_REQUEST := by decide
  constructor
  · cases hblocks : (select_top_messages messages DEFAULT_TOP_MESSAGES).map _format_message with
    | nil =>
      left
      simp only [build_summary_request, hblocks, accumulateParts, joinBlocks]
      simpa using hplaceholder
    | cons f fs =>
      by_cases hlen : f.length ≤ MAX_CHARS_PER_REQUEST
      · left
        have hstep : accumulateParts (f :: fs) [] 0
            = accumulateParts fs [f] (0 + f.length + 2) := by
          simp [accumulateParts]
        have hcur : 0 + f.length + 2 = (joinBlocks [f]).length + 2 := by
          simp [joinBlocks]
        rcases accumulateParts_spec fs [f] (0 + f.length + 2) (by simp) hcur with h | h
        · simp only [build_summary_request, hblocks, hstep, h, joinBlocks]
          split
          · exact hplaceholder
          · exact hlen
        · simp only [build_summary_request, hblocks, hstep]
          split
          · exact hplaceholder
          · omega
      · right
        exact ⟨f, fs, rfl, by omega⟩
  · intro f fs hblocks hbig
    have hstep : accumulateParts (f :: fs) [] 0
        = accumulateParts fs [f] (0 + f.length + 2) := by
      simp [accumulateParts]
    have hstop : accumulateParts fs [f] (0 + f.length + 2) = [f] :=
      accumulateParts_stop fs [f] _ (by simp) (by omega)
    have hfne : ¬(f = "") := by
      intro hf
      rw [hf] at hbig
      simp [MAX_CHARS_PER_REQUEST] at hbig
    simp only [build_summary_request, hblocks, hstep, hstop, joinBlocks]
    rw [if_neg hfne]

theorem string_length_pos_of_ne_empty (s : String) (h : s ≠ "") : 0 < s.length := by
  rcases s with ⟨data⟩
  cases data with
  | nil => exact absurd rfl h
  | cons c cs => simp [String.length]

/-- C9: `build_summary_request` is total (a Lean function by
construction); on an empty qualifying set the body is exactly the fixed
placeholder sentence, and the body always has positive length — it is
never the empty string. -/
theorem build_summary_request_placeholder (channel : String) :
    (build_summary_request channel []).text = PLACEHOLDER_TEXT ∧
    ∀ messages, 0 < (build_summary_request channel messages).text.length := by
  constructor
  · rfl
  · intro messages
    simp only [build_summary_request]
    split
    · decide
    · rename_i hne
      exact string_length_pos_of_ne_empty _ hne

theorem mem_insertSorted {α : Type} (le : α → α → Bool) (a x : α) (l : List α) :
    x ∈ insertSorted le a l ↔ x = a ∨ x ∈ l := by
  induction l with
  | nil => simp [insertSorted]
  | cons b bs ih =>
    simp only [insertSorted]
    split
    · simp [List.mem_cons]
    · simp only [List.mem_cons, ih]
      tauto

theorem pairwise_insertSorted {α : Type} (le : α → α → Bool)
    (htrans : ∀ a b c, le a b = true → le b c = true → le a c = true)
    (htot : ∀ a b, le a b = false → le b a = true) (a : α) (l : List α)
    (hl : l.Pairwise (fun x y => le x y = true)) :
    (insertSorted le a l).Pairwise (fun x y => le x y = true) := by
  induction l with
  | nil => simp [insertSorted]
  | cons b bs ih =>
    rcases List.pairwise_cons.mp hl with ⟨hb, hbs⟩
    simp only [insertSorted]
    split
    · rename_i hab
      refine List.pairwise_cons.mpr ⟨?_, hl⟩
      intro x hx
      rcases List.mem_cons.mp hx with rfl | hx
      · exact hab
      · exact htrans a b x hab (hb x hx)
    · rename_i hab
      have hba : le b a = true := htot a b (by simpa using hab)
      refine List.pairwise_cons.mpr ⟨?_, ih hbs⟩
      intro x hx
      rcases (mem_insertSorted le a x bs).mp hx with rfl | hx
      · exact hba
      · exact hb x hx

theorem pairwise_stableSortBy {α : Type} (le : α → α → Bool)
    (htrans : ∀ a b c, le a b = true → le b c = true → le a c = true)
    (htot : ∀ a b, le a b = false → le b a = true) (l : List α) :
    (stableSortBy le l).Pairwise (fun x y => le x y = true) := by
  induction l with
  | nil => simp [stableSortBy]
  | cons a l ih =>
    simp only [stableSortBy, List.foldr_cons] at ih ⊢
    exact pairwise_insertSorted le htrans htot a _ ih

theorem msgBefore_trans (a b c : CollectedMessage)
    (h1 : msgBefore a b = true) (h2 : msgBefore b c = true) : msgBefore a c = true := by
  simp only [msgBefore, keyLE, decide_eq_true_eq] at h1 h2 ⊢
  omega

theorem msgBefore_total (a b : CollectedMessage) (h : msgBefore a b = false) :
    msgBefore b a = true := by
  simp only [msgBefore, keyLE, decide_eq_false_iff_not] at h
  simp only [msgBefore, keyLE, decide_eq_true_eq]
  omega

/-- C8: the output of `select_top_messages` is ordered non-increasing by
view count (a missing count reads as 0), ties ordered non-increasing by
timestamp, and has at most `limit` elements. -/
theorem select_top_messages_ranking (messages : List CollectedMessage) (limit : Nat) :
    (select_top_messages messages limit).length ≤ limit ∧
    (select_top_messages messages limit).Pairwise (fun a b =>
      b.views.getD 0 ≤ a.views.getD 0 ∧
        (a.views.getD 0 = b.views.getD 0 → b.date ≤ a.date)) := by
  constructor
  · simp only [select_top_messages, List.length_take]
    exact Nat.min_le_left _ _
  · have hp := pairwise_stableSortBy msgBefore msgBefore_trans msgBefore_total messages
    have hsub : List.Sublist (select_top_messages messages limit)
        (stableSortBy msgBefore messages) := List.take_sublist limit _
    have hp2 := hp.sublist hsub
    refine hp2.imp ?_
    intro a b h
    simp only [msgBefore, keyLE, sort_key, decide_eq_true_eq] at h
    constructor
    · rcases h with h | ⟨h, _⟩
      · exact Nat.le_of_lt h
      · exact Nat.le_of_eq h
    · intro heq
      rcases h with h | ⟨_, h⟩
      · omega
      · exact h

/-! ## C10: a zero view count is indistinguishable from a missing one -/

/-- Maps `views = some 0` to `none`, leaving everything else unchanged:
two message lists differ only in zero-vs-missing view counts exactly
when their images under this map coincide. -/
def normViews (m : CollectedMessage) : CollectedMessage :=
  CollectedMessage.mk m.channel m.message_id m.date m.text m.link
    (match m.views with | some 0 => none | v => v)

theorem sort_key_normViews (m : CollectedMessage) : sort_key (normViews m) = sort_key m := by
  rcases m with ⟨ch, mid, d, t, lk, vs⟩
  cases vs with
  | none => rfl
  | some v => cases v <;> rfl

theorem format_message_normViews (m : CollectedMessage) :
    _format_message (normViews m) = _format_message m := by
  rcases m with ⟨ch, mid, d, t, lk, vs⟩
  cases vs with
  | none => rfl
  | some v => cases v <;> rfl

theorem msgBefore_normViews (a b : CollectedMessage) :
    msgBefore (normViews a) (normViews b) = msgBefore a b := by
  simp [msgBefore, sort_key_normViews]

theorem insertSorted_map_invariant {α : Type} (le : α → α → Bool) (f : α → α)
    (hf : ∀ a b, le (f a) (f b) = le a b) (a : α) (l : List α) :
    insertSorted le (f a) (l.map f) = (insertSorted le a l).map f := by
  induction l with
  | nil => rfl
  | cons b bs ih =>
    simp only [List.map_cons, insertSorted, hf]
    split
    · simp
    · simp [ih]

theorem stableSortBy_map_invariant {α : Type} (le : α → α → Bool) (f : α → α)
    (hf : ∀ a b, le (f a) (f b) = le a b) (l : List α) :
    stableSortBy le (l.map f) = (stableSortBy le l).map f := by
  induction l with
  | nil => rfl
  | cons a l ih =>
    simp only [List.map_cons, stableSortBy, List.foldr_cons] at ih ⊢
    rw [ih, insertSorted_map_invariant le f hf]

theorem select_top_messages_normViews (messages : List CollectedMessage) (limit : Nat) :
    select_top_messages (messages.map normViews) limit =
      (select_top_messages messages limit).map normViews := by
  simp only [select_top_messages]
  rw [stableSortBy_map_invariant msgBefore normViews msgBefore_normViews, List.map_take]

theorem build_summary_request_normViews (channel : String) (messages : List CollectedMessage) :
    build_summary_request channel (messages.map normViews) =
      build_summary_request channel messages := by
  have hblocks : (select_top_messages (messages.map normViews) DEFAULT_TOP_MESSAGES).map
      _format_message = (select_top_messages messages DEFAULT_TOP_MESSAGES).map
      _format_message := by
    rw [select_top_messages_normViews, List.map_map]
    exact List.map_congr_left (fun a _ => format_message_normViews a)
  simp only [build_summary_request, hblocks]

/-- C10: two input lists that differ only in messages carrying a zero
view count in one and a missing view count in the other (i.e. with the
same image under `normViews`) yield identical `SummaryRequest`s — zero
and missing view counts are indistinguishable in ranking and output. -/
theorem build_summary_request_views_zero_eq_missing (channel : String)
    (l1 l2 : List CollectedMessage) (h : l1.map normViews = l2.map normViews) :
    build_summary_request channel l1 = build_summary_request channel l2 := by
  rw [← build_summary_request_normViews channel l1,
    ← build_summary_request_normViews channel l2, h]

def chanEx : String := "c"

def msgZeroViews : CollectedMessage := ⟨chanEx, 1, 0, chanEx, none, some 0⟩

def msgMissingViews : CollectedMessage := ⟨chanEx, 1, 0, chanEx, none, none⟩

theorem build_summary_request_views_zero_eq_missing_witness :
    [msgZeroViews].map normViews = [msgMissingViews].map normViews ∧
      build_summary_request chanEx [msgZeroViews] =
        build_summary_request chanEx [msgMissingViews] :=
  ⟨by decide,
    build_summary_request_views_zero_eq_missing chanEx [msgZeroViews] [msgMissingViews]
      (by decide)⟩

/-! ## Sanitizer (publisher.py, clean_markdown) -/

/-- Scans for the lazy closing pair `mm` of `re.sub(r'\*\*(.*?)\*\*', ...)`:
the earliest two consecutive marker characters, not crossing a newline
(`.` does not match `\n`).  Returns the group and the remainder after
the closing pair. -/
def findClose (m : Char) : List Char → Option (List Char × List Char)
  | [] => none
  | [_] => none
  | c :: c2 :: rest =>
    if c = '\n' then none
    else if c = m ∧ c2 = m then some ([], rest)
    else
      match findClose m (c2 :: rest) with
      | some (g, rem) => some (c :: g, rem)
      | none => none

/-- One `re.sub(r'\*\*(.*?)\*\*', r'*\1*', text)` pass (publisher.py
lines 26-27), on fuel: at each position, if two consecutive markers open
a match and a closing pair exists on the same line, replace the doubled
markers by single ones and continue after the match; otherwise advance
one character.  One unit of fuel per consumed character, so
`fuel = length` always suffices. -/
def canonPassF : Nat → Char → List Char → List Char
  | 0, _, l => l
  | fuel + 1, m, l =>
    match l with
    | [] => []
    | c :: rest =>
      if c = m then
        match rest with
        | c2 :: rest2 =>
          if c2 = m then
            match findClose m rest2 with
            | some (g, rem) => m :: (g ++ m :: canonPassF fuel m rem)
            | none => c :: canonPassF fuel m rest
          else c :: canonPassF fuel m rest
        | [] => [c]
      else c :: canonPassF fuel m rest

def canonPass (m : Char) (l : List Char) : List Char := canonPassF l.length m l

/-- Python `text.split('\n')`. -/
def splitLines : List Char → List (List Char)
  | [] => [[]]
  | c :: rest =>
    if c = '\n' then [] :: splitLines rest
    else
      match splitLines rest with
      | [] => [[c]]
      | l :: ls => (c :: l) :: ls

/-- Python `'\n'.join(...)`. -/
def joinLines : List (List Char) → List Char
  | [] => []
  | [l] => l
  | l :: ls => l ++ '\n' :: joinLines ls

/-- The per-line step of `clean_markdown` (publisher.py lines 33-39):
keep a line whose `*` and `_` counts are both even, otherwise remove
every `*` and every `_` from it. -/
def cleanLine (line : List Char) : List Char :=
  if line.count '*' % 2 = 0 ∧ line.count '_' % 2 = 0 then line
  else (line.filter (fun c => !(c == '*'))).filter (fun c => !(c == '_'))

/-- `clean_markdown` (publisher.py lines 22-41): canonicalize doubled
emphasis markers (`**`→`*`, then `__`→`_`), then process line by line. -/
def clean_markdown (text : List Char) : List Char :=
  joinLines ((splitLines (canonPass '_' (canonPass '*' text))).map cleanLine)

theorem splitLines_ne_nil (l : List Char) : splitLines l ≠ [] := by
  induction l with
  | nil => simp [splitLines]
  | cons c rest ih =>
    simp only [splitLines]
    split
    · simp
    · cases hsp : splitLines rest with
      | nil => exact absurd hsp ih
      | cons p ps => simp

theorem newline_not_mem_splitLines (l : List Char) :
    ∀ s ∈ splitLines l, '\n' ∉ s := by
  induction l with
  | nil => intro s hs; simp [splitLines] at hs; simp [hs]
  | cons c rest ih =>
    intro s hs
    simp only [splitLines] at hs
    split at hs
    · rcases List.mem_cons.mp hs with rfl | hs
      · simp
      · exact ih s hs
    · rename_i hc
      cases hsp : splitLines rest with
      | nil => exact absurd hsp (splitLines_ne_nil rest)
      | cons p ps =>
        rw [hsp] at hs
        rcases List.mem_cons.mp hs with rfl | hs2
        · intro hmem
          rcases List.mem_cons.mp hmem with h | h
          · exact hc h.symm
          · refine ih p ?_ h
            rw [hsp]
            exact List.mem_cons_self p ps
        · refine ih s ?_
          rw [hsp]
          exact List.mem_cons_of_mem p hs2

theorem splitLines_of_no_newline (l : List Char) (h : '\n' ∉ l) :
    splitLines l = [l] := by
  induction l with
  | nil => rfl
  | cons c rest ih =>
    simp only [splitLines]
    have hc : ¬(c = '\n') := fun hh => h (by simp [hh])
    rw [if_neg hc, ih (fun hh => h (by simp [hh]))]

theorem splitLines_append_newline (l t : List Char) (h : '\n' ∉ l) :
    splitLines (l ++ '\n' :: t) = l :: splitLines t := by
  induction l with
  | nil => simp [splitLines]
  | cons c rest ih =>
    have hc : ¬(c = '\n') := fun hh => h (by simp [hh])
    simp only [List.cons_append, splitLines, if_neg hc]
    rw [show splitLines (rest.append ('\n' :: t)) = rest :: splitLines t from
      ih (fun hh => h (by simp [hh]))]

theorem joinLines_cons_cons (p q : List Char) (qs : List (List Char)) :
    joinLines (p :: q :: qs) = p ++ '\n' :: joinLines (q :: qs) :=
  joinLines.eq_3 p (q :: qs) (by simp)

theorem splitLines_joinLines (ls : List (List Char)) (hne : ls ≠ [])
    (h : ∀ l ∈ ls, '\n' ∉ l) : splitLines (joinLines ls) = ls := by
  induction ls with
  | nil => contradiction
  | cons l ls ih =>
    cases ls with
    | nil => exact splitLines_of_no_newline l (h l (by simp))
    | cons q qs =>
      rw [joinLines_cons_cons, splitLines_append_newline l _ (h l (by simp))]
      rw [ih (by simp) (fun x hx => h x (by simp [hx]))]

theorem cleanLine_no_newline (line : List Char) (h : '\n' ∉ line) :
    '\n' ∉ cleanLine line := by
  unfold cleanLine
  split
  · exact h
  · intro hmem
    exact h (List.mem_of_mem_filter (List.mem_of_mem_filter hmem))

/-- Counterexample line for C3: the `_` count is odd and the `*` count
is even, yet `clean_markdown` removes the (balanced) `*` markers too. -/
def exC3 : List Char := ['a', '_', 'b', '*', 'c', '*']

/-- C3 (counterexample): the line `"a_b*c*"` has one `_` (odd) and two
`*` (balanced); `clean_markdown` yields `"abc"`, i.e. it removed every
`*` as well, contradicting the claim that the balanced marker is
preserved when only the other marker is unbalanced. -/
theorem clean_markdown_removes_balanced_marker_cex :
    exC3.count '*' % 2 = 0 ∧ exC3.count '_' % 2 = 1 ∧
    clean_markdown exC3 = ['a', 'b', 'c'] ∧
    '*' ∈ exC3 ∧ '*' ∉ clean_markdown exC3 := by
  decide

/-- C3 (amended): `clean_markdown` acts line by line on the text obtained
after canonicalizing doubled emphasis markers: a canonicalized line with
even counts of both `*` and `_` is kept unchanged, while a line with an
odd count of either marker has ALL instances of BOTH marker characters
removed from that line only; the line structure is preserved. -/
theorem clean_markdown_per_line (text : List Char) :
    (splitLines (clean_markdown text)).length
        = (splitLines (canonPass '_' (canonPass '*' text))).length ∧
    ∀ (i : Nat) (line : List Char),
      (splitLines (canonPass '_' (canonPass '*' text)))[i]? = some line →
      (line.count '*' % 2 = 0 ∧ line.count '_' % 2 = 0 →
        (splitLines (clean_markdown text))[i]? = some line) ∧
      (¬(line.count '*' % 2 = 0 ∧ line.count '_' % 2 = 0) →
        (splitLines (clean_markdown text))[i]?
          = some ((line.filter (fun c => !(c == '*'))).filter (fun c => !(c == '_')))) := by
  have hkey : splitLines (clean_markdown text)
      = (splitLines (canonPass '_' (canonPass '*' text))).map cleanLine := by
    unfold clean_markdown
    apply splitLines_joinLines
    · simp [splitLines_ne_nil]
    · intro l hl
      rcases List.mem_map.mp hl with ⟨l0, hl0, rfl⟩
      exact cleanLine_no_newline l0 (newline_not_mem_splitLines _ l0 hl0)
  constructor
  · rw [hkey, List.length_map]
  · intro i line hline
    have hmap : (splitLines (clean_markdown text))[i]? = some (cleanLine line) := by
      rw [hkey, List.getElem?_map, hline]
      rfl
    constructor
    · intro heven
      rw [hmap]
      unfold cleanLine
      rw [if_pos heven]
    · intro hodd
      rw [hmap]
      unfold cleanLine
      rw [if_neg hodd]

/-- Witness input for the amended C3: a balanced line followed by a line
with an odd underscore count. -/
def exC3w : List Char := ['*', 'b', '*', '\n', 'c', '_']

def lineC3w : List Char := ['c', '_']

theorem clean_markdown_per_line_witness :
    (splitLines (canonPass '_' (canonPass '*' exC3w)))[1]? = some lineC3w ∧
    ¬(lineC3w.count '*' % 2 = 0 ∧ lineC3w.count '_' % 2 = 0) ∧
    (splitLines (clean_markdown exC3w))[1]?
      = some ((lineC3w.filter (fun c => !(c == '*'))).filter (fun c => !(c == '_'))) :=
  ⟨by decide, by decide,
    ((clean_markdown_per_line exC3w).2 1 lineC3w (by decide)).2 (by decide)⟩

/-! ## Publisher (publisher.py, ReportPublisher.send_markdown)

The destination is modelled as a trace `out : Nat → ApiOutcome` giving
the response to the n-th HTTP POST of this delivery (rich and plain
posts consume consecutive indices).  The payload text does not influence
the control flow of `send_markdown`, so the model records the observable
behaviour: result, number of rich and plain attempts, and the sequence
of backoff sleeps (seconds). -/

/-- One destination response: an HTTP response (status, the `ok` flag of
the JSON body, and whether `str(data)` contains "parse"/"markdown"/
"entity"), or an httpx-level network error. -/
inductive ApiOutcome where
  | response (status : Nat) (ok : Bool) (parseIndicated : Bool)
  | networkError (desc : String)
deriving DecidableEq

/-- The `last_error` detail recorded by the retry loop. -/
inductive ErrDetail where
  | statusDetail (status : Nat) (ok : Bool) (parseIndicated : Bool)
  | networkDetail (desc : String)
deriving DecidableEq

/-- The distinct `PublishError` raises of publisher.py lines 108-109,
line 109, and line 126. -/
inductive PubError where
  | permissionDenied (status : Nat) (ok : Bool) (parseIndicated : Bool)
  | formatAndPlainFailed (richDetail : ErrDetail)
  | exhausted (attempts : Nat) (last : Option ErrDetail)
deriving DecidableEq

inductive SendResult where
  | success
  | failure (e : PubError)
deriving DecidableEq

structure SendTrace where
  result : SendResult
  richAttempts : Nat
  plainAttempts : Nat
  sleeps : List Nat
deriving DecidableEq

def ErrDetail.ofOutcome : ApiOutcome → ErrDetail
  | .response s ok p => .statusDetail s ok p
  | .networkError d => .networkDetail d

/-- The `for attempt in range(1, max_retries + 1)` loop of
`send_markdown` (publisher.py lines 75-126).  `k` is the number of
attempts remaining, so the current attempt number is `maxRetries - k + 1`
(with `k + 1` remaining, the attempt number is `maxRetries - k`); the
Python condition `attempt < max_retries` is `1 ≤ k` and the backoff
`2 ** attempt` is `2 ^ (maxRetries - k)`.  A network error during the
plain resend is caught by the same `except` clause and retried, like the
source. -/
def sendAttempts (out : Nat → ApiOutcome) (maxRetries : Nat) :
    Nat → Nat → Option ErrDetail → Nat → Nat → List Nat → SendTrace
  | 0, _, lastErr, rich, plain, sleeps =>
    ⟨.failure (.exhausted maxRetries lastErr), rich, plain, sleeps⟩
  | k + 1, idx, _, rich, plain, sleeps =>
    match out idx with
    | .response status ok parse =>
      if status = 200 ∧ ok = true then ⟨.success, rich + 1, plain, sleeps⟩
      else if status = 400 ∧ parse = true then
        match out (idx + 1) with
        | .response s2 ok2 p2 =>
          if s2 = 200 ∧ ok2 = true then ⟨.success, rich + 1, plain + 1, sleeps⟩
          else if s2 = 403 then
            ⟨.failure (.permissionDenied s2 ok2 p2), rich + 1, plain + 1, sleeps⟩
          else
            ⟨.failure (.formatAndPlainFailed (.statusDetail status ok parse)),
              rich + 1, plain + 1, sleeps⟩
        | .networkError d =>
          if 1 ≤ k then
            sendAttempts out maxRetries k (idx + 2) (some (.networkDetail d)) (rich + 1)
              (plain + 1) (sleeps ++ [2 ^ (maxRetries - k)])
          else
            sendAttempts out maxRetries k (idx + 2) (some (.networkDetail d)) (rich + 1)
              (plain + 1) sleeps
      else
        if 1 ≤ k then
          sendAttempts out maxRetries k (idx + 1) (some (.statusDetail status ok parse))
            (rich + 1) plain (sleeps ++ [2 ^ (maxRetries - k)])
        else
          sendAttempts out maxRetries k (idx + 1) (some (.statusDetail status ok parse))
            (rich + 1) plain sleeps
    | .networkError d =>
      if 1 ≤ k then
        sendAttempts out maxRetries k (idx + 1) (some (.networkDetail d)) (rich + 1) plain
          (sleeps ++ [2 ^ (maxRetries - k)])
      else
        sendAttempts out maxRetries k (idx + 1) (some (.networkDetail d)) (rich + 1) plain
          sleeps

/-- `ReportPublisher.send_markdown` (publisher.py lines 61-126); source
default `max_retries = 3`. -/
def send_markdown (out : Nat → ApiOutcome) (maxRetries : Nat) : SendTrace :=
  sendAttempts out maxRetries maxRetries 0 none 0 0 []

/-- A failure that is neither a success nor a 400-with-parse-indication:
the retry path of the loop. -/
def nonFormatFailure : ApiOutcome → Prop
  | .response status ok parse => ¬(status = 200 ∧ ok = true) ∧ ¬(status = 400 ∧ parse = true)
  | .networkError _ => True

instance (o : ApiOutcome) : Decidable (nonFormatFailure o) := by
  cases o <;> (unfold nonFormatFailure; infer_instance)

/-- C4: when the destination answers the rich attempt with a 400 whose
payload indicates a parse/entity problem, `send_markdown` makes exactly
one plain resend: if the plain resend succeeds, the delivery succeeds
after exactly one rich and one plain attempt with no sleeps; if the
plain resend returns 403, it fails immediately with the permission
`PublishError`, again after exactly one rich and one plain attempt and
with no retry sleeps. -/
theorem send_markdown_parse_fallback (maxRetries : Nat) (hmax : 1 ≤ maxRetries) :
    (∀ (out : Nat → ApiOutcome) (b p2 : Bool), out 0 = .response 400 b true →
      out 1 = .response 200 true p2 →
      send_markdown out maxRetries = ⟨.success, 1, 1, []⟩) ∧
    (∀ (out : Nat → ApiOutcome) (b ok2 pp2 : Bool), out 0 = .response 400 b true →
      out 1 = .response 403 ok2 pp2 →
      send_markdown out maxRetries
        = ⟨.failure (.permissionDenied 403 ok2 pp2), 1, 1, []⟩) := by
  obtain ⟨k, rfl⟩ : ∃ k, maxRetries = k + 1 := ⟨maxRetries - 1, by omega⟩
  constructor
  · intro out b p2 h0 h1
    simp [send_markdown, sendAttempts, h0, h1]
  · intro out b ok2 pp2 h0 h1
    simp [send_markdown, sendAttempts, h0, h1]

def fallbackOut : Nat → ApiOutcome := fun n =>
  if n = 0 then .response 400 false true else .response 200 true false

theorem send_markdown_parse_fallback_witness :
    (1 ≤ 3 ∧ fallbackOut 0 = .response 400 false true ∧
      fallbackOut 1 = .response 200 true false) ∧
    send_markdown fallbackOut 3 = ⟨.success, 1, 1, []⟩ :=
  ⟨⟨by decide, by decide, by decide⟩,
    (send_markdown_parse_fallback 3 (by decide)).1 fallbackOut false false
      (by decide) (by decide)⟩

theorem sendAttempts_all_nonformat (out : Nat → ApiOutcome) (M : Nat) :
    ∀ (k idx : Nat) (lastErr : Option ErrDetail) (rich plain : Nat) (sleeps : List Nat),
      1 ≤ k → k ≤ M → (∀ i, i < k → nonFormatFailure (out (idx + i))) →
      sendAttempts out M k idx lastErr rich plain sleeps =
        ⟨.failure (.exhausted M (some (.ofOutcome (out (idx + k - 1))))), rich + k, plain,
          sleeps ++ (List.range (k - 1)).map (fun i => 2 ^ (M - k + 1 + i))⟩ := by
  intro k
  induction k with
  | zero => intro idx lastErr rich plain sleeps h; omega
  | succ k ih =>
    intro idx lastErr rich plain sleeps _ hkM hfail
    have h0 := hfail 0 (by omega)
    rw [Nat.add_zero] at h0
    have htail : ∀ i, i < k → nonFormatFailure (out (idx + 1 + i)) := by
      intro i hi
      have := hfail (i + 1) (by omega)
      rwa [show idx + (i + 1) = idx + 1 + i by omega] at this
    have hsleeps : ∀ s : List Nat, k = 0 → s ++ (List.range (k + 1 - 1)).map
        (fun i => 2 ^ (M - (k + 1) + 1 + i)) = s := by
      intro s hk0
      subst hk0
      simp
    have hrange : 1 ≤ k → (List.range (k + 1 - 1)).map (fun i => 2 ^ (M - (k + 1) + 1 + i))
        = 2 ^ (M - k) :: (List.range (k - 1)).map (fun i => 2 ^ (M - k + 1 + i)) := by
      intro hk1
      obtain ⟨j, rfl⟩ : ∃ j, k = j + 1 := ⟨k - 1, by omega⟩
      rw [show j + 1 + 1 - 1 = j + 1 by omega, show j + 1 - 1 = j by omega,
        List.range_succ_eq_map, List.map_cons, List.map_map]
      congr 1
      · congr 1
        omega
      · apply List.map_congr_left
        intro i _
        simp only [Function.comp]
        congr 1
        omega
    cases hout : out idx with
    | response status ok parse =>
      rw [hout] at h0
      simp only [nonFormatFailure] at h0
      simp only [sendAttempts, hout]
      rw [if_neg h0.1, if_neg h0.2]
      by_cases hk1 : 1 ≤ k
      · rw [if_pos hk1, ih (idx + 1) _ _ _ _ hk1 (by omega) htail]
        have hlast : idx + 1 + k - 1 = idx + (k + 1) - 1 := by omega
        have hrich : rich + 1 + k = rich + (k + 1) := by omega
        rw [hlast, hrich, hrange hk1]
        simp [ErrDetail.ofOutcome, List.append_assoc]
      · have hk0 : k = 0 := by omega
        rw [if_neg hk1]
        subst hk0
        simp only [sendAttempts]
        rw [hsleeps sleeps rfl]
        simp [hout, ErrDetail.ofOutcome]
    | networkError d =>
      simp only [sendAttempts, hout]
      by_cases hk1 : 1 ≤ k
      · rw [if_pos hk1, ih (idx + 1) _ _ _ _ hk1 (by omega) htail]
        have hlast : idx + 1 + k - 1 = idx + (k + 1) - 1 := by omega
        have hrich : rich + 1 + k = rich + (k + 1) := by omega
        rw [hlast, hrich, hrange hk1]
        simp [ErrDetail.ofOutcome, List.append_assoc]
      · have hk0 : k = 0 := by omega
        rw [if_neg hk1]
        subst hk0
        simp only [sendAttempts]
        rw [hsleeps sleeps rfl]
        simp [hout, ErrDetail.ofOutcome]

/-- C5: when every attempt fails with a non-formatting failure (non-2xx
response not identified as a parse problem, or a network error),
`send_markdown` makes exactly `maxRetries` rich attempts and no plain
attempt, sleeps 2, 4, 8, … seconds (doubling, one sleep between
consecutive attempts), and fails with the `PublishError` that carries
the last observed failure detail. -/
theorem send_markdown_retries_exhausted (out : Nat → ApiOutcome) (maxRetries : Nat)
    (hmax : 1 ≤ maxRetries) (hfail : ∀ i, i < maxRetries → nonFormatFailure (out i)) :
    send_markdown out maxRetries =
      ⟨.failure (.exhausted maxRetries (some (.ofOutcome (out (maxRetries - 1))))),
        maxRetries, 0, (List.range (maxRetries - 1)).map (fun i => 2 ^ (1 + i))⟩ := by
  unfold send_markdown
  rw [sendAttempts_all_nonformat out maxRetries maxRetries 0 none 0 0 [] hmax
    (Nat.le_refl _) (by simpa using hfail)]
  simp [Nat.sub_self]

def failOut : Nat → ApiOutcome := fun _ => .response 500 false false

theorem send_markdown_retries_exhausted_witness :
    (1 ≤ 3 ∧ ∀ i, i < 3 → nonFormatFailure (failOut i)) ∧
      send_markdown failOut 3 =
        ⟨.failure (.exhausted 3 (some (.ofOutcome (failOut 2)))), 3, 0,
          (List.range 2).map (fun i => 2 ^ (1 + i))⟩ :=
  ⟨⟨by decide, by decide⟩,
    send_markdown_retries_exhausted failOut 3 (by decide) (by decide)⟩

end Digest
